import Mathlib

/-!
Shallow embedding of the `history_stack` crate (`src/lib.rs`): the two value
wrappers `HistoryStack<T>` (the spec's SaveStack) and `UndoStack<T>` (the
spec's TimelineStack), with their public operations, and theorems settling
the specification claims.

Modelling conventions:
- `Vec<T>` is a `List T` whose index `i` is the vector index `i`; `Vec::push`
  appends at the end, `Vec::pop` removes the last element,
  `Vec::truncate n` is `List.take n`.
- `Clone::clone` on stored values is the identity (values are pure).
- operations that can panic (`unwrap`, out-of-bounds indexing) return
  `Option`, with `none` standing for the panic.
- `Result<&mut T, &mut T>` is `Except T T`: the returned reference is
  modelled by the value it points at in the post-state.
-/

/-- `HistoryStack<T>`: a stack of saved values plus the live current value. -/
structure HistoryStack (T : Type) where
  stack : List T
  current : T
  deriving Repr, DecidableEq

namespace HistoryStack

variable {T : Type}

/-- `HistoryStack::new`: current value `v`, empty stack. -/
def new (v : T) : HistoryStack T :=
  { stack := [], current := v }

/-- `HistoryStack::pop`: pop the last saved value into `current`, returning the
previous current value; on an empty stack return `none` and leave the state
unchanged. -/
def pop (h : HistoryStack T) : Option T × HistoryStack T :=
  match h.stack.getLast? with
  | some last => (some h.current, { stack := h.stack.dropLast, current := last })
  | none => (none, h)

/-- `HistoryStack::push_value`: move `current` onto the stack and replace it
with `v`. -/
def push_value (h : HistoryStack T) (v : T) : HistoryStack T :=
  { stack := h.stack ++ [h.current], current := v }

/-- `HistoryStack::push`: push a clone of `current` onto the stack, leaving
`current` untouched. -/
def push (h : HistoryStack T) : HistoryStack T :=
  { h with stack := h.stack ++ [h.current] }

end HistoryStack

/-- `UndoStack<T>`: a non-empty history of values with a cursor index
(`current`) marking the live value. -/
structure UndoStack (T : Type) where
  history : List T
  current : Nat
  deriving Repr, DecidableEq

namespace UndoStack

variable {T : Type}

/-- `UndoStack::new`: history `[start]`, cursor `0`. -/
def new (start : T) : UndoStack T :=
  { history := [start], current := 0 }

/-- `UndoStack::default` (for `T: Default`): history `[T::default()]`,
cursor `0`. -/
def dflt [Inhabited T] : UndoStack T :=
  { history := [default], current := 0 }

/-- `UndoStack::invariant_ck`: the debug-checked internal invariant — history
non-empty and cursor a valid index. -/
def invariant_ck (s : UndoStack T) : Prop :=
  s.history.isEmpty = false ∧ s.current < s.history.length

instance (s : UndoStack T) : Decidable s.invariant_ck :=
  inferInstanceAs (Decidable (_ ∧ _))

/-- `UndoStack::invalidate_future`: if the cursor is not at the last entry,
truncate the history to `current + 1` entries. -/
def invalidate_future (s : UndoStack T) : UndoStack T :=
  if s.current + 1 ≠ s.history.length then
    { s with history := s.history.take (s.current + 1) }
  else s

/-- `UndoStack::push_unchecked`: append `val`, increment the cursor, and
return (the value behind) a reference to the new current entry; the indexing
`history[current]` panics (`none`) if the new cursor is out of range. -/
def push_unchecked (s : UndoStack T) (val : T) : Option T × UndoStack T :=
  let s' : UndoStack T := { history := s.history ++ [val], current := s.current + 1 }
  (s'.history.get? s'.current, s')

/-- `UndoStack::save`: invalidate future history, clone the last entry
(`history.last().unwrap()` — `none` on empty history), append the clone and
advance the cursor, returning the new current value. -/
def save (s : UndoStack T) : Option (T × UndoStack T) :=
  let s1 := s.invalidate_future
  match s1.history.getLast? with
  | none => none
  | some val =>
    match s1.push_unchecked val with
    | (some r, s2) => some (r, s2)
    | (none, _) => none

/-- `UndoStack::push`: invalidate future history, then append `new_current`
and advance the cursor, returning the new current value. -/
def push (s : UndoStack T) (new_current : T) : Option (T × UndoStack T) :=
  let s1 := s.invalidate_future
  match s1.push_unchecked new_current with
  | (some r, s2) => some (r, s2)
  | (none, _) => none

/-- `UndoStack::undo`: if `current > 0` (i.e. `current.checked_sub(1)` is
`Some`), decrement the cursor and return `Ok` of the new current entry;
otherwise return `Err` of the entry at index 0. Indexing panics (`none`) when
out of range. -/
def undo (s : UndoStack T) : Option (Except T T × UndoStack T) :=
  match s.current with
  | Nat.succ n =>
    let s' : UndoStack T := { s with current := n }
    (s'.history.get? n).map fun r => (Except.ok r, s')
  | 0 =>
    (s.history.get? 0).map fun r => (Except.error r, s)

/-- `UndoStack::redo`: if `current + 1 == history.len()` return `Err` of the
unchanged current entry; otherwise increment the cursor and return `Ok` of the
new current entry. Indexing panics (`none`) when out of range. -/
def redo (s : UndoStack T) : Option (Except T T × UndoStack T) :=
  if s.current + 1 = s.history.length then
    (s.history.get? s.current).map fun r => (Except.error r, s)
  else
    let s' : UndoStack T := { s with current := s.current + 1 }
    (s'.history.get? s'.current).map fun r => (Except.ok r, s')

/-- `UndoStack::inner` / `Deref`: the entry at the cursor (`none` models the
panic of `history[current]` out of range). -/
def inner (s : UndoStack T) : Option T :=
  s.history.get? s.current

end UndoStack

/-- The states of `UndoStack` reachable from `new` (or `default`) by the
public operations `save`, `push`, `undo`, `redo` (stepping only through
non-panicking runs). -/
inductive Reachable {T : Type} : UndoStack T → Prop where
  | new (start : T) : Reachable (UndoStack.new start)
  | dflt [Inhabited T] : Reachable (UndoStack.dflt : UndoStack T)
  | save {s s' : UndoStack T} {r : T} :
      Reachable s → s.save = some (r, s') → Reachable s'
  | push {s s' : UndoStack T} {v r : T} :
      Reachable s → s.push v = some (r, s') → Reachable s'
  | undo {s s' : UndoStack T} {r : Except T T} :
      Reachable s → s.undo = some (r, s') → Reachable s'
  | redo {s s' : UndoStack T} {r : Except T T} :
      Reachable s → s.redo = some (r, s') → Reachable s'


/-- `PartialEq<T>`, `PartialOrd<T>`/`Ord` and `Hash` for `HistoryStack<T>`:
comparison and hashing against a bare value delegate to `current`. The
concrete comparator/hasher of `T` is abstracted as a function argument. -/
def HistoryStack.eqT {T : Type} (eqf : T → T → Bool) (h : HistoryStack T)
    (v : T) : Bool :=
  eqf h.current v

/-- `PartialOrd<T>`/`Ord` for `HistoryStack<T>`: comparison against a bare
value delegates to `current`. -/
def HistoryStack.cmpT {T : Type} (cmpf : T → T → Ordering)
    (h : HistoryStack T) (v : T) : Ordering :=
  cmpf h.current v

/-- `Hash` for `HistoryStack<T>`: hashing delegates to `current`. -/
def HistoryStack.hashT {T : Type} (hashf : T → Nat) (h : HistoryStack T) :
    Nat :=
  hashf h.current

/-- `PartialEq<T>` for `UndoStack<T>`: delegates to `inner()`, i.e. the entry
at the cursor (`none` models the panic on a cursor out of range). -/
def UndoStack.eqT {T : Type} (eqf : T → T → Bool) (s : UndoStack T)
    (v : T) : Option Bool :=
  s.inner.map fun c => eqf c v

/-- `PartialOrd<T>`/`Ord` for `UndoStack<T>`: delegates to `inner()`. -/
def UndoStack.cmpT {T : Type} (cmpf : T → T → Ordering) (s : UndoStack T)
    (v : T) : Option Ordering :=
  s.inner.map fun c => cmpf c v

/-- `Hash` for `UndoStack<T>`: delegates to `inner()`. -/
def UndoStack.hashT {T : Type} (hashf : T → Nat) (s : UndoStack T) :
    Option Nat :=
  s.inner.map hashf

/-- C8: `pop` on a `HistoryStack` with an empty stack returns `none` and leaves
the state unchanged (`current` keeps its value, the stack stays empty). -/
theorem historyStack_pop_empty_noop {T : Type} (h : HistoryStack T)
    (he : h.stack = []) : h.pop = (none, h) := by
  simp [HistoryStack.pop, he]

/-- Witness for C8 at a concrete input. -/
theorem historyStack_pop_empty_noop_witness :
    (HistoryStack.new (7 : Nat)).pop = (none, HistoryStack.new 7) :=
  historyStack_pop_empty_noop (HistoryStack.new 7) rfl

/-- C10: `push` followed by `pop` returns `some` of the pre-push current value
and restores the whole state (stack contents and `current`, clone being the
identity on pure values). -/
theorem historyStack_push_pop_roundtrip {T : Type} (h : HistoryStack T) :
    h.push.pop = (some h.current, h) := by
  simp [HistoryStack.push, HistoryStack.pop]

/-- C1 counterexample: starting from `new 0`, after `push_value 5` a successful
`pop` leaves `current = 0`, not the value `5` most recently passed to
`push_value`: the claim as stated fails at this input. -/
theorem historyStack_pop_current_counterexample :
    ((((HistoryStack.new (0 : Nat)).push_value 5).pop).1 = some 5 ∧
      (((HistoryStack.new (0 : Nat)).push_value 5).pop).2.current = 0) ∧
      (0 : Nat) ≠ 5 := by
  constructor
  · constructor <;> rfl
  · decide

/-- C1 (amended): a successful `pop` sets `current` to the most recently
*saved* value in LIFO order — the stack's last element, which `push_value v`
makes the displaced previous current value (while `pop` then returns `v`), and
which `push` makes the clone of the then-current value. -/
theorem historyStack_pop_lifo {T : Type} (h : HistoryStack T) (l : List T)
    (x v : T) (hs : h.stack = l ++ [x]) :
    h.pop = (some h.current, { stack := l, current := x }) ∧
      (h.push_value v).pop =
        (some v, { stack := h.stack, current := h.current }) ∧
      h.push.pop = (some h.current, h) := by
  refine ⟨?_, ?_, ?_⟩
  · simp [HistoryStack.pop, hs]
  · simp [HistoryStack.pop, HistoryStack.push_value]
  · simp [HistoryStack.push, HistoryStack.pop]

/-- Witness for the amended C1 at a concrete input. -/
theorem historyStack_pop_lifo_witness :
    ({ stack := [1, 2], current := 9 } : HistoryStack Nat).pop =
        (some 9, { stack := [1], current := 2 }) ∧
      (({ stack := [1, 2], current := 9 } : HistoryStack Nat).push_value 4).pop =
        (some 4, { stack := [1, 2], current := 9 }) ∧
      ({ stack := [1, 2], current := 9 } : HistoryStack Nat).push.pop =
        (some 9, { stack := [1, 2], current := 9 }) :=
  historyStack_pop_lifo { stack := [1, 2], current := 9 } [1] 2 4 rfl

namespace UndoStack

variable {T : Type}

theorem invariant_ck_iff (s : UndoStack T) :
    s.invariant_ck ↔ s.current < s.history.length := by
  unfold UndoStack.invariant_ck
  constructor
  · exact fun h => h.2
  · intro h
    refine ⟨?_, h⟩
    cases hl : s.history with
    | nil => rw [hl] at h; simp at h
    | cons a t => simp

theorem invalidate_future_spec (s : UndoStack T)
    (h : s.current < s.history.length) :
    s.invalidate_future =
      { history := s.history.take (s.current + 1), current := s.current } := by
  unfold UndoStack.invalidate_future
  by_cases hc : s.current + 1 = s.history.length
  · rw [if_neg (by omega)]
    rw [List.take_of_length_le (by omega)]
  · rw [if_pos hc]

theorem getLast?_take_of_lt (l : List T) (c : Nat) (h : c < l.length) :
    (l.take (c + 1)).getLast? = l.get? c := by
  rw [List.getLast?_eq_getElem?]
  have hlen : (l.take (c + 1)).length = c + 1 := by
    rw [List.length_take]; omega
  rw [hlen]
  simp only [Nat.add_sub_cancel]
  rw [List.getElem?_take_of_lt (by omega)]
  rw [List.get?_eq_getElem?]

theorem get_current_some (s : UndoStack T)
    (h : s.current < s.history.length) :
    ∃ v, s.history.get? s.current = some v := by
  rw [List.get?_eq_getElem?]
  exact ⟨_, List.getElem?_eq_getElem h⟩

theorem get?_concat_self (l : List T) (v : T) :
    (l ++ [v]).get? l.length = some v := by
  rw [List.get?_eq_getElem?]
  exact List.getElem?_concat_length l v

theorem push_spec (s : UndoStack T)
    (h : s.current < s.history.length) (v : T) :
    s.push v =
      some (v, ⟨s.history.take (s.current + 1) ++ [v], s.current + 1⟩) := by
  have hlen : (s.history.take (s.current + 1)).length = s.current + 1 := by
    rw [List.length_take]; omega
  have hg : ((s.history.take (s.current + 1)) ++ [v]).get? (s.current + 1)
      = some v := by
    have h2 := get?_concat_self (s.history.take (s.current + 1)) v
    rwa [hlen] at h2
  unfold UndoStack.push UndoStack.push_unchecked
  rw [invalidate_future_spec s h]
  simp only [hg]

theorem save_spec (s : UndoStack T)
    (h : s.current < s.history.length) :
    ∃ v, s.history.get? s.current = some v ∧
      s.save =
        some (v, ⟨s.history.take (s.current + 1) ++ [v], s.current + 1⟩) := by
  obtain ⟨v, hv⟩ := get_current_some s h
  refine ⟨v, hv, ?_⟩
  have hl : (s.history.take (s.current + 1)).getLast? = some v := by
    rw [getLast?_take_of_lt s.history s.current h, hv]
  have hlen : (s.history.take (s.current + 1)).length = s.current + 1 := by
    rw [List.length_take]; omega
  have hg : ((s.history.take (s.current + 1)) ++ [v]).get? (s.current + 1)
      = some v := by
    have h2 := get?_concat_self (s.history.take (s.current + 1)) v
    rwa [hlen] at h2
  unfold UndoStack.save UndoStack.push_unchecked
  rw [invalidate_future_spec s h]
  simp only [hl, hg]

theorem undo_spec_zero (s : UndoStack T) (h0 : s.current = 0)
    (hn : 0 < s.history.length) :
    ∃ r, s.history.get? 0 = some r ∧ s.undo = some (Except.error r, s) := by
  obtain ⟨r, hr⟩ : ∃ r, s.history.get? 0 = some r := by
    rw [List.get?_eq_getElem?]
    exact ⟨_, List.getElem?_eq_getElem hn⟩
  refine ⟨r, hr, ?_⟩
  unfold UndoStack.undo
  rw [h0, hr]
  rfl

theorem undo_spec_pos (s : UndoStack T) (hp : 0 < s.current)
    (h : s.current < s.history.length) :
    ∃ r, s.history.get? (s.current - 1) = some r ∧
      s.undo = some (Except.ok r, { s with current := s.current - 1 }) := by
  obtain ⟨n, hn⟩ : ∃ n, s.current = n + 1 := ⟨s.current - 1, by omega⟩
  obtain ⟨r, hr⟩ : ∃ r, s.history.get? n = some r := by
    rw [List.get?_eq_getElem?]
    exact ⟨_, List.getElem?_eq_getElem (by omega)⟩
  refine ⟨r, ?_, ?_⟩
  · rw [hn, Nat.add_sub_cancel, hr]
  · unfold UndoStack.undo
    rw [hn, Nat.add_sub_cancel]
    show (s.history.get? n).map _ = _
    rw [hr]
    rfl

theorem redo_spec_last (s : UndoStack T)
    (h : s.current + 1 = s.history.length) :
    ∃ r, s.history.get? s.current = some r ∧
      s.redo = some (Except.error r, s) := by
  obtain ⟨r, hr⟩ := get_current_some s (by omega)
  refine ⟨r, hr, ?_⟩
  unfold UndoStack.redo
  rw [if_pos h, hr]
  rfl

theorem redo_spec_mid (s : UndoStack T)
    (h : s.current + 1 < s.history.length) :
    ∃ r, s.history.get? (s.current + 1) = some r ∧
      s.redo = some (Except.ok r, { s with current := s.current + 1 }) := by
  obtain ⟨r, hr⟩ : ∃ r, s.history.get? (s.current + 1) = some r := by
    rw [List.get?_eq_getElem?]
    exact ⟨_, List.getElem?_eq_getElem h⟩
  refine ⟨r, hr, ?_⟩
  unfold UndoStack.redo
  rw [if_neg (by omega)]
  show (s.history.get? (s.current + 1)).map _ = _
  rw [hr]
  rfl

end UndoStack

/-- Every reachable `UndoStack` has a cursor strictly below the history
length (which also forces the history to be non-empty). -/
theorem reachable_invariant {T : Type} {s : UndoStack T} (h : Reachable s) :
    s.current < s.history.length := by
  induction h with
  | new start => simp [UndoStack.new]
  | dflt => simp [UndoStack.dflt]
  | @save s0 s' r hr he ih =>
    obtain ⟨v, hv, hs⟩ := UndoStack.save_spec s0 ih
    rw [hs] at he
    injection he with hp
    injection hp with h1 h2
    rw [← h2]
    show s0.current + 1 < (s0.history.take (s0.current + 1) ++ [v]).length
    simp only [List.length_append, List.length_take, List.length_cons,
      List.length_nil]
    omega
  | @push s0 s' v r hr he ih =>
    have hs := UndoStack.push_spec s0 ih v
    rw [hs] at he
    injection he with hp
    injection hp with h1 h2
    rw [← h2]
    show s0.current + 1 < (s0.history.take (s0.current + 1) ++ [v]).length
    simp only [List.length_append, List.length_take, List.length_cons,
      List.length_nil]
    omega
  | @undo s0 s' r hr he ih =>
    rcases Nat.eq_zero_or_pos s0.current with h0 | hp0
    · obtain ⟨r', hr', hu⟩ := UndoStack.undo_spec_zero s0 h0 (by omega)
      rw [hu] at he
      injection he with hp
      injection hp with h1 h2
      rw [← h2]; exact ih
    · obtain ⟨r', hr', hu⟩ := UndoStack.undo_spec_pos s0 hp0 ih
      rw [hu] at he
      injection he with hp
      injection hp with h1 h2
      rw [← h2]
      show s0.current - 1 < s0.history.length
      omega
  | @redo s0 s' r hr he ih =>
    by_cases hl : s0.current + 1 = s0.history.length
    · obtain ⟨r', hr', hu⟩ := UndoStack.redo_spec_last s0 hl
      rw [hu] at he
      injection he with hp
      injection hp with h1 h2
      rw [← h2]; exact ih
    · have hm : s0.current + 1 < s0.history.length := by omega
      obtain ⟨r', hr', hu⟩ := UndoStack.redo_spec_mid s0 hm
      rw [hu] at he
      injection he with hp
      injection hp with h1 h2
      rw [← h2]
      show s0.current + 1 < s0.history.length
      exact hm

/-- C2: every `UndoStack` reachable from `new` (or `default`) through the
public operations `save`, `push`, `undo`, `redo` satisfies the internal
invariant: the history is non-empty and the cursor is a valid index. -/
theorem undoStack_reachable_invariant_ck {T : Type} (s : UndoStack T)
    (h : Reachable s) : s.invariant_ck :=
  (UndoStack.invariant_ck_iff s).mpr (reachable_invariant h)

/-- Witness for C2 at a concrete reachable state. -/
theorem undoStack_reachable_invariant_ck_witness :
    (UndoStack.new (0 : Nat)).invariant_ck :=
  undoStack_reachable_invariant_ck (UndoStack.new 0) (Reachable.new 0)

/-- C3: under the invariant, `save` truncates the history to `cursor + 1`
entries, appends a clone of the entry at the cursor, increments the cursor,
and returns the new current entry, which equals the prior current value. -/
theorem undoStack_save_truncate_clone_advance {T : Type} (s : UndoStack T)
    (h : s.invariant_ck) :
    ∃ v, s.history.get? s.current = some v ∧
      s.save =
        some (v, ⟨s.history.take (s.current + 1) ++ [v], s.current + 1⟩) ∧
      (s.history.take (s.current + 1) ++ [v]).get? (s.current + 1) =
        some v := by
  have h' := (UndoStack.invariant_ck_iff s).mp h
  obtain ⟨v, hv, hs⟩ := UndoStack.save_spec s h'
  refine ⟨v, hv, hs, ?_⟩
  have hlen : (s.history.take (s.current + 1)).length = s.current + 1 := by
    rw [List.length_take]; omega
  have h2 := UndoStack.get?_concat_self (s.history.take (s.current + 1)) v
  rwa [hlen] at h2

/-- Witness for C3 at a concrete state with one future (redo) entry. -/
theorem undoStack_save_truncate_clone_advance_witness :
    ∃ v, ([3, 4, 9] : List Nat).get? 1 = some v ∧
      (UndoStack.mk [3, 4, 9] 1).save =
        some (v, ⟨([3, 4] : List Nat) ++ [v], 2⟩) ∧
      (([3, 4] : List Nat) ++ [v]).get? 2 = some v :=
  undoStack_save_truncate_clone_advance (UndoStack.mk [3, 4, 9] 1) (by decide)

/-- C4: with `k > 0` future entries beyond the cursor, `push` (and likewise
`save`) truncates them all away — the new history is the first `cursor + 1`
old entries plus the new one, shrinking the history by `k - 1` — and a `redo`
immediately afterwards returns the failure (`Err`) variant. -/
theorem undoStack_divergent_write_kills_redo {T : Type} (s : UndoStack T)
    (v : T) (k : Nat) (h : s.invariant_ck)
    (hk : s.history.length = s.current + 1 + k) (hk0 : 0 < k) :
    (∃ s', s.push v = some (v, s') ∧
      s'.history = s.history.take (s.current + 1) ++ [v] ∧
      s'.history.length + k = s.history.length + 1 ∧
      s'.redo = some (Except.error v, s')) ∧
    (∃ w s', s.history.get? s.current = some w ∧ s.save = some (w, s') ∧
      s'.history = s.history.take (s.current + 1) ++ [w] ∧
      s'.history.length + k = s.history.length + 1 ∧
      s'.redo = some (Except.error w, s')) := by
  have h' := (UndoStack.invariant_ck_iff s).mp h
  have hlenT : (s.history.take (s.current + 1)).length = s.current + 1 := by
    rw [List.length_take]; omega
  constructor
  · have hs := UndoStack.push_spec s h' v
    refine ⟨⟨s.history.take (s.current + 1) ++ [v], s.current + 1⟩, hs,
      rfl, ?_, ?_⟩
    · simp only [List.length_append, List.length_cons, List.length_nil,
        hlenT]
      omega
    · obtain ⟨r, hrg, hre⟩ :=
        UndoStack.redo_spec_last
          (⟨s.history.take (s.current + 1) ++ [v], s.current + 1⟩ :
            UndoStack T)
          (by simp only [List.length_append, List.length_cons,
                List.length_nil, hlenT])
      have hgv : ((s.history.take (s.current + 1) ++ [v]).get?
          (s.current + 1)) = some v := by
        have h2 := UndoStack.get?_concat_self
          (s.history.take (s.current + 1)) v
        rwa [hlenT] at h2
      have hrv : r = v := by
        have := hrg
        rw [show ((⟨s.history.take (s.current + 1) ++ [v],
            s.current + 1⟩ : UndoStack T)).history.get?
            (⟨s.history.take (s.current + 1) ++ [v], s.current + 1⟩ :
              UndoStack T).current =
            (s.history.take (s.current + 1) ++ [v]).get? (s.current + 1)
          from rfl, hgv] at this
        exact (Option.some.inj this).symm
      rw [hrv] at hre
      exact hre
  · obtain ⟨w, hw, hs⟩ := UndoStack.save_spec s h'
    refine ⟨w, ⟨s.history.take (s.current + 1) ++ [w], s.current + 1⟩,
      hw, hs, rfl, ?_, ?_⟩
    · simp only [List.length_append, List.length_cons, List.length_nil,
        hlenT]
      omega
    · obtain ⟨r, hrg, hre⟩ :=
        UndoStack.redo_spec_last
          (⟨s.history.take (s.current + 1) ++ [w], s.current + 1⟩ :
            UndoStack T)
          (by simp only [List.length_append, List.length_cons,
                List.length_nil, hlenT])
      have hgv : ((s.history.take (s.current + 1) ++ [w]).get?
          (s.current + 1)) = some w := by
        have h2 := UndoStack.get?_concat_self
          (s.history.take (s.current + 1)) w
        rwa [hlenT] at h2
      have hrv : r = w := by
        have := hrg
        rw [show ((⟨s.history.take (s.current + 1) ++ [w],
            s.current + 1⟩ : UndoStack T)).history.get?
            (⟨s.history.take (s.current + 1) ++ [w], s.current + 1⟩ :
              UndoStack T).current =
            (s.history.take (s.current + 1) ++ [w]).get? (s.current + 1)
          from rfl, hgv] at this
        exact (Option.some.inj this).symm
      rw [hrv] at hre
      exact hre

/-- Witness for C4 at a concrete state with `k = 2` future entries. -/
theorem undoStack_divergent_write_kills_redo_witness :
    (∃ s', (UndoStack.mk [3, 4, 9] 0).push (7 : Nat) = some (7, s') ∧
      s'.history = ([3] : List Nat) ++ [7] ∧
      s'.history.length + 2 = 4 ∧
      s'.redo = some (Except.error 7, s')) ∧
    (∃ w s', ([3, 4, 9] : List Nat).get? 0 = some w ∧
      (UndoStack.mk [3, 4, 9] 0).save = some (w, s') ∧
      s'.history = ([3] : List Nat) ++ [w] ∧
      s'.history.length + 2 = 4 ∧
      s'.redo = some (Except.error w, s')) :=
  undoStack_divergent_write_kills_redo (UndoStack.mk [3, 4, 9] 0) 7 2
    (by decide) (by decide) (by decide)

/-- C5: from any reachable state, `save()` then `undo()` then `redo()` brings
the stack back to exactly the state it had immediately after the `save()`
(same current value and same cursor position). -/
theorem undoStack_save_undo_redo_roundtrip {T : Type} (s : UndoStack T)
    (h : Reachable s) :
    ∃ v s1 r2 s2, s.save = some (v, s1) ∧ s1.undo = some (r2, s2) ∧
      s2.redo = some (Except.ok v, s1) := by
  have h' := reachable_invariant h
  obtain ⟨v, hv, hs⟩ := UndoStack.save_spec s h'
  have hlenT : (s.history.take (s.current + 1)).length = s.current + 1 := by
    rw [List.length_take]; omega
  have hlenL : (s.history.take (s.current + 1) ++ [v]).length
      = s.current + 2 := by
    simp only [List.length_append, List.length_cons, List.length_nil, hlenT]
  have hgv : (s.history.take (s.current + 1) ++ [v]).get? (s.current + 1)
      = some v := by
    have h2 := UndoStack.get?_concat_self (s.history.take (s.current + 1)) v
    rwa [hlenT] at h2
  obtain ⟨r2, hr2, hu⟩ := UndoStack.undo_spec_pos
    (⟨s.history.take (s.current + 1) ++ [v], s.current + 1⟩ : UndoStack T)
    (by show 0 < s.current + 1; omega)
    (by show s.current + 1 < (s.history.take (s.current + 1) ++ [v]).length
        rw [hlenL]; omega)
  obtain ⟨r3, hr3, hre⟩ := UndoStack.redo_spec_mid
    (⟨s.history.take (s.current + 1) ++ [v], s.current⟩ : UndoStack T)
    (by show s.current + 1 < (s.history.take (s.current + 1) ++ [v]).length
        rw [hlenL]; omega)
  have hr3v : r3 = v := by
    have h3 := hr3
    rw [show (⟨s.history.take (s.current + 1) ++ [v], s.current⟩ :
        UndoStack T).history.get?
        ((⟨s.history.take (s.current + 1) ++ [v], s.current⟩ :
          UndoStack T).current + 1)
        = (s.history.take (s.current + 1) ++ [v]).get? (s.current + 1)
      from rfl, hgv] at h3
    exact (Option.some.inj h3).symm
  rw [hr3v] at hre
  exact ⟨v, ⟨s.history.take (s.current + 1) ++ [v], s.current + 1⟩,
    Except.ok r2, ⟨s.history.take (s.current + 1) ++ [v], s.current⟩,
    hs, hu, hre⟩

/-- Witness for C5 at a concrete reachable state. -/
theorem undoStack_save_undo_redo_roundtrip_witness :
    ∃ v s1 r2 s2, (UndoStack.new (6 : Nat)).save = some (v, s1) ∧
      s1.undo = some (r2, s2) ∧ s2.redo = some (Except.ok v, s1) :=
  undoStack_save_undo_redo_roundtrip (UndoStack.new 6) (Reachable.new 6)

/-- C6: under the invariant, `undo` with a positive cursor decrements it and
returns `Ok` of the entry at the new cursor with the history unchanged, while
`undo` at cursor 0 returns `Err` of the entry at index 0 and changes
nothing. -/
theorem undoStack_undo_cases {T : Type} (s : UndoStack T)
    (h : s.invariant_ck) :
    (0 < s.current → ∃ r, s.history.get? (s.current - 1) = some r ∧
      s.undo = some (Except.ok r, ⟨s.history, s.current - 1⟩)) ∧
    (s.current = 0 → ∃ r, s.history.get? 0 = some r ∧
      s.undo = some (Except.error r, s)) := by
  have h' := (UndoStack.invariant_ck_iff s).mp h
  constructor
  · intro hp
    exact UndoStack.undo_spec_pos s hp h'
  · intro h0
    exact UndoStack.undo_spec_zero s h0 (by omega)

/-- Witness for C6 at a concrete state with a positive cursor. -/
theorem undoStack_undo_cases_witness :
    ((0 : Nat) < 1 → ∃ r, ([5, 6] : List Nat).get? 0 = some r ∧
      (UndoStack.mk [5, 6] 1).undo =
        some (Except.ok r, UndoStack.mk [5, 6] 0)) ∧
    ((1 : Nat) = 0 → ∃ r, ([5, 6] : List Nat).get? 0 = some r ∧
      (UndoStack.mk [5, 6] 1).undo =
        some (Except.error r, UndoStack.mk [5, 6] 1)) :=
  undoStack_undo_cases (UndoStack.mk [5, 6] 1) (by decide)

/-- C7: under the invariant, `redo` with at least one future entry increments
the cursor and returns `Ok` of the entry at the new cursor with the history
unchanged, while `redo` with the cursor at the last entry returns `Err` of
the unchanged current entry and changes nothing. -/
theorem undoStack_redo_cases {T : Type} (s : UndoStack T)
    (h : s.invariant_ck) :
    (s.current + 1 < s.history.length → ∃ r,
      s.history.get? (s.current + 1) = some r ∧
      s.redo = some (Except.ok r, ⟨s.history, s.current + 1⟩)) ∧
    (¬ s.current + 1 < s.history.length → ∃ r,
      s.history.get? s.current = some r ∧
      s.redo = some (Except.error r, s)) := by
  have h' := (UndoStack.invariant_ck_iff s).mp h
  constructor
  · intro hm
    exact UndoStack.redo_spec_mid s hm
  · intro hl
    exact UndoStack.redo_spec_last s (by omega)

/-- Witness for C7 at a concrete state with one future entry. -/
theorem undoStack_redo_cases_witness :
    ((0 : Nat) + 1 < 2 → ∃ r, ([5, 6] : List Nat).get? 1 = some r ∧
      (UndoStack.mk [5, 6] 0).redo =
        some (Except.ok r, UndoStack.mk [5, 6] 1)) ∧
    (¬ (0 : Nat) + 1 < 2 → ∃ r, ([5, 6] : List Nat).get? 0 = some r ∧
      (UndoStack.mk [5, 6] 0).redo =
        some (Except.error r, UndoStack.mk [5, 6] 0)) :=
  undoStack_redo_cases (UndoStack.mk [5, 6] 0) (by decide)

/-- C9: comparing or hashing a wrapper against a bare value agrees exactly
with comparing or hashing the wrapper's current value, for any comparator,
ordering and hash function of the element type: for a `HistoryStack` the
delegation is to `current`, and for any reachable `UndoStack` the entry at
the cursor exists and the delegation is to it. -/
theorem wrapper_transparency {T : Type} (eqf : T → T → Bool)
    (cmpf : T → T → Ordering) (hashf : T → Nat) (h : HistoryStack T)
    (v : T) (s : UndoStack T) (hr : Reachable s) :
    (h.eqT eqf v = eqf h.current v ∧ h.cmpT cmpf v = cmpf h.current v ∧
      h.hashT hashf = hashf h.current) ∧
    (∃ c, s.inner = some c ∧ s.eqT eqf v = some (eqf c v) ∧
      s.cmpT cmpf v = some (cmpf c v) ∧ s.hashT hashf = some (hashf c)) := by
  refine ⟨⟨rfl, rfl, rfl⟩, ?_⟩
  have h' := reachable_invariant hr
  obtain ⟨c, hc⟩ := UndoStack.get_current_some s h'
  refine ⟨c, hc, ?_, ?_, ?_⟩ <;>
    simp only [UndoStack.eqT, UndoStack.cmpT, UndoStack.hashT,
      UndoStack.inner, hc, Option.map]

/-- Witness for C9 at a concrete comparator, hasher, wrapper pair and bare
value. -/
theorem wrapper_transparency_witness :
    ((HistoryStack.mk [1, 2] 3).eqT (fun a b => a == b) 3 = ((3 : Nat) == 3) ∧
      (HistoryStack.mk [1, 2] 3).cmpT compare 3 = compare (3 : Nat) 3 ∧
      (HistoryStack.mk [1, 2] 3).hashT (fun a => a + 1) = 3 + 1) ∧
    (∃ c, (UndoStack.new (4 : Nat)).inner = some c ∧
      (UndoStack.new (4 : Nat)).eqT (fun a b => a == b) 3 = some (c == 3) ∧
      (UndoStack.new (4 : Nat)).cmpT compare 3 = some (compare c 3) ∧
      (UndoStack.new (4 : Nat)).hashT (fun a => a + 1) = some (c + 1)) :=
  wrapper_transparency (fun a b => a == b) compare (fun a => a + 1)
    (HistoryStack.mk [1, 2] 3) 3 (UndoStack.new 4) (Reachable.new 4)
